import Mathlib

/-!
Verification of the command-line compiler in `nukecli.py`.

The development shallowly embeds the compiler core: the segment splitter and
brace-aware tokenizer of `parseLine`/`parseCLI`, the class resolver
`getNukeNode`, and the stack-machine dispatch of `parseCLI` (set / push /
execute / save / node creation), together with the deferred-execution appender
and the program emitter.

Modelling conventions:
- strings are Lean `String`s; character-level work uses `List Char`;
- the host filesystem probed by the "save" branch (`os.path.isdir`,
  `os.path.exists`) is an explicit environment `FS` of two boolean oracles;
- the pseudo-random CRC32 identifier generator is replaced by a deterministic
  fresh-counter supply threaded through the compiler state (the source relies
  only on each generated identifier being fresh and on the `N` prefix);
- Python exceptions (`KeyError` from the variable map, `IndexError` from
  popping an empty argument list, `ValueError` from class resolution) become
  an explicit error type `Err`;
- the regular expressions of the source are modelled character by character:
  candidates interpolated into a regex are treated as literal strings
  (inputs containing regex metacharacters are outside the model).
-/

/-- The whitespace class of Python's `\s` and `str.strip`. -/
def isPySpace (c : Char) : Bool :=
  c = ' ' || c = '\t' || c = '\n' || c = '\r' || c = '\x0b' || c = '\x0c'

/-- Python `str.strip()`: drop leading and trailing whitespace. -/
def trimPy (l : List Char) : List Char :=
  ((l.dropWhile isPySpace).reverse.dropWhile isPySpace).reverse

/-- Occurrence test for the two-character separator space-hyphen. -/
def hasSep : List Char → Bool
  | [] => false
  | c :: rest => (decide (c = ' ') && decide (rest.head? = some '-')) || hasSep rest

/-- Python `s.split(' -')`: left-to-right non-overlapping split on the
two-character separator, keeping empty pieces. -/
def splitDash : List Char → List (List Char)
  | [] => [[]]
  | ' ' :: '-' :: rest => [] :: splitDash rest
  | c :: rest =>
    match splitDash rest with
    | [] => [[c]]
    | seg :: segs => (c :: seg) :: segs

/-- The segmentation of `parseCLI`: prepend a space, split on space-hyphen,
drop empty pieces, strip each remaining piece. -/
def segmentsPy (raw : List Char) : List (List Char) :=
  ((splitDash (' ' :: raw)).filter (fun seg => seg ≠ [])).map trimPy

/-- The character class of the brace alternative of the token regex
`(\{[{}.0-9\s]+\}|[^\s]+)`. -/
def isArgClass (c : Char) : Bool :=
  c = '{' || c = '}' || c = '.' || c.isDigit || isPySpace c

/-- Complement of the whitespace class, the `[^\s]` of the token regex. -/
def notSpace (c : Char) : Bool := !(isPySpace c)

/-- Index of the last occurrence of `c` in `l`, if any. -/
def lastIdxOf (c : Char) : List Char → Option Nat
  | [] => none
  | a :: rest =>
    match lastIdxOf c rest with
    | some j => some (j + 1)
    | none => if a = c then some 0 else none

/-- Greedy match of the brace alternative `\{[{}.0-9\s]+\}` of the token
regex, at a position whose character was an opening brace; `rest` holds the
characters after that brace.  The regex engine greedily consumes the maximal
run of class characters and backtracks to the last closing brace inside it
(the content must be non-empty, hence the index bound).  Returns the matched
token and the remaining input. -/
def braceTok (rest : List Char) : Option (List Char × List Char) :=
  match lastIdxOf '}' (rest.takeWhile isArgClass) with
  | none => none
  | some j =>
    if 1 ≤ j then
      some ('{' :: (rest.takeWhile isArgClass).take j ++ ['}'], rest.drop (j + 1))
    else none

/-- One token step of `re.findall` with the argument regex: at a non-space
character `c` with remaining input `rest`, match the brace alternative if `c`
is an opening brace and it succeeds, otherwise the maximal non-space run. -/
def nextTok (c : Char) (rest : List Char) : List Char × List Char :=
  if c = '{' then
    match braceTok rest with
    | some (tok, rem) => (tok, rem)
    | none => (c :: rest.takeWhile notSpace, rest.dropWhile notSpace)
  else (c :: rest.takeWhile notSpace, rest.dropWhile notSpace)

/-- Fuelled scan of `re.findall(argRE, line)`: skip whitespace, otherwise
emit the next token.  The fuel only bounds the recursion (every step consumes
at least one character), so `length`-many units always suffice. -/
def findallArgF : Nat → List Char → List (List Char)
  | 0, _ => []
  | _ + 1, [] => []
  | fuel + 1, c :: rest =>
    if isPySpace c then findallArgF fuel rest
    else (nextTok c rest).1 :: findallArgF fuel (nextTok c rest).2

/-- `re.findall` with the argument regex `(\{[{}.0-9\s]+\}|[^\s]+)`. -/
def findallArg (s : List Char) : List (List Char) :=
  findallArgF s.length s

/-- String-level view of the tokenizer, for concrete evaluation. -/
def tokenizePy (s : String) : List String :=
  (findallArg s.toList).map String.mk

/-- `parseLine`: tokenize the segment and pop the first token as the command
name.  Popping an empty token list raises `IndexError` in the source, here
`none`. -/
def parseLinePy (line : List Char) : Option (String × List String) :=
  match findallArg line with
  | [] => none
  | t :: rest => some (String.mk t, rest.map String.mk)

/-- Lexicographic comparison of character lists by code point, the order
Python uses to sort strings; `lexLe a b` means `a ≤ b`. -/
def lexLe : List Char → List Char → Bool
  | [], _ => true
  | _ :: _, [] => false
  | a :: as, b :: bs =>
    if a.toNat < b.toNat then true
    else if b.toNat < a.toNat then false
    else lexLe as bs

/-- Python string `≤`. -/
def strLe (a b : String) : Bool := lexLe a.toList b.toList

/-- Insertion into a sorted list, for the model of Python's `list.sort`. -/
def insertSorted (x : String) : List String → List String
  | [] => [x]
  | y :: ys => if strLe x y then x :: y :: ys else y :: insertSorted x ys

/-- Model of Python's `list.sort` on strings.  Since string elements that
compare equal are identical, every correct sort produces this list. -/
def pySort : List String → List String
  | [] => []
  | x :: xs => insertSorted x (pySort xs)

/-- `matches.sort(); return matches[-1]` of `getNukeNode`. -/
def pySortLast (l : List String) : String := (pySort l).getLastD ""

/-- Match of `re.match('^%s\d?$' % inString, item)`: the item is the
candidate, or the candidate followed by one digit. -/
def exactVerMatch (inString item : String) : Bool :=
  item.toList == inString.toList ||
    (item.toList.length == inString.toList.length + 1 &&
     List.isPrefixOf inString.toList item.toList &&
     (item.toList.getLastD ' ').isDigit)

/-- ASCII lowering of a string, the effect of `re.IGNORECASE`. -/
def lowerPy (s : String) : String := String.mk (s.toList.map Char.toLower)

/-- The case-insensitive tier of the version-suffix match. -/
def ciVerMatch (inString item : String) : Bool :=
  exactVerMatch (lowerPy inString) (lowerPy item)

/-- Match of `re.search('^%s' % inString, item, re.IGNORECASE)`: the pattern
is anchored at the start, so search semantics reduce to a case-insensitive
prefix test. -/
def ciPartialMatch (inString item : String) : Bool :=
  List.isPrefixOf (lowerPy inString).toList (lowerPy item).toList

/-- The fatal errors of compilation: `KeyError` from `varMap[varName]`,
the two `ValueError`s of `getNukeNode`, and `IndexError` from `args.pop(0)`
on an empty list. -/
inductive Err
  | keyError (varName : String)
  | noMatch (inString : String)
  | ambiguousMatch (inString : String) (found : List String)
  | indexError
deriving DecidableEq

/-- `getNukeNode`: resolve a candidate against the plugin catalog.
Tier 1: exact version-suffix match, sorted, last taken.  Tier 2: the same
case-insensitively.  Tier 3: case-insensitive partial (prefix) match, unique
or error. -/
def getNukeNode (catalog : List String) (inString : String) : Except Err String :=
  let m1 := catalog.filter (fun item => exactVerMatch inString item)
  if m1 ≠ [] then .ok (pySortLast m1)
  else
    let m2 := catalog.filter (fun item => ciVerMatch inString item)
    if m2 ≠ [] then .ok (pySortLast m2)
    else
      let m3 := catalog.filter (fun item => ciPartialMatch inString item)
      match m3 with
      | [] => .error (.noMatch inString)
      | [x] => .ok x
      | xs => .error (.ambiguousMatch inString xs)

/-- Modelled from the source's `generateNodeID`: the CRC32 hash of the
variable name plus a pseudo-random number is replaced by a deterministic
fresh counter threaded through compilation; what the source relies on is
that every generated identifier is fresh and carries the `N` prefix. -/
def generateNodeID (varName : String) (n : Nat) : String :=
  "N" ++ varName ++ "_" ++ toString n

/-- The emitted TCL statements, one constructor per `cmdStack.append` format
string of the source. -/
inductive Stmt
  | setVar (id : String)
  | pushVar (id : String)
  | pushZero
  | save (path : String)
  | createNode (cls : String) (args : String)
  | executeRange (id : String) (range : String)
  | executeKnobs (id : String)
deriving DecidableEq

/-- The textual form of each statement, exactly the format strings of the
source. -/
def Stmt.render : Stmt → String
  | .setVar id => "set " ++ id ++ " [stack 0]"
  | .pushVar id => "push $" ++ id
  | .pushZero => "push 0"
  | .save path => "script_save \x7b" ++ path ++ "\x7d"
  | .createNode cls args => cls ++ " \x7b" ++ args ++ "\x7d"
  | .executeRange id range => "execute $" ++ id ++ " " ++ range
  | .executeKnobs id =>
      "execute $" ++ id ++ " [value $" ++ id ++ ".first]-[value $" ++ id ++ ".last]"

/-- Whether a statement is one of the two deferred execute forms. -/
def Stmt.isExec : Stmt → Bool
  | .executeRange _ _ => true
  | .executeKnobs _ => true
  | _ => false

/-- The warnings printed by the "save" branch, one constructor per `print`. -/
inductive Warn
  | isDirectory (path : String)
  | alreadyExists (path : String)
  | noForce
  | invalidForce
  | forcing
deriving DecidableEq

/-- The filesystem probed by the "save" branch: `os.path.isdir` and
`os.path.exists`. -/
structure FS where
  isdir : String → Bool
  pathExists : String → Bool

/-- A filesystem on which no path exists. -/
def fsEmpty : FS := ⟨fun _ => false, fun _ => false⟩

/-- The mutable state of the `parseCLI` loop: the output statement list, the
deferred execution requests, the variable table (newest entry first, as a
Python dict lookup), the emitted warnings and the fresh-identifier counter. -/
structure St where
  cmdStack : List Stmt
  execNodes : List (String × Option String)
  varMap : List (String × String)
  warnings : List Warn
  counter : Nat
deriving DecidableEq

/-- The initial state: `cmdStack = []`, `execNodes = []`,
`varMap = {'0': '0'}`. -/
def initSt : St :=
  { cmdStack := [], execNodes := [], varMap := [("0", "0")], warnings := [], counter := 0 }

/-- The "set" branch: generate a fresh identifier, record it in the variable
table (shadowing any older entry, as a dict assignment does), and emit a
capture statement. -/
def setCmd (st : St) (varName : String) : St :=
  let varID := generateNodeID varName st.counter
  { st with varMap := (varName, varID) :: st.varMap,
            cmdStack := st.cmdStack ++ [.setVar varID],
            counter := st.counter + 1 }

/-- The "push" branch: look the name up (a `KeyError` aborts), then emit the
null-placeholder push for the literal name "0" and an identifier push
otherwise. -/
def pushCmd (st : St) (varName : String) : Except Err St :=
  match st.varMap.lookup varName with
  | none => .error (.keyError varName)
  | some varID =>
    if varName ≠ "0" then .ok { st with cmdStack := st.cmdStack ++ [.pushVar varID] }
    else .ok { st with cmdStack := st.cmdStack ++ [.pushZero] }

/-- The "execute" branch: generate a fresh identifier, register the deferred
execution request with the optional first argument as range, and emit the
capture statement immediately. -/
def execCmd (st : St) (args : List String) : St :=
  let varID := generateNodeID ("execute") st.counter
  { st with execNodes := st.execNodes ++ [(varID, args.head?)],
            cmdStack := st.cmdStack ++ [.setVar varID],
            counter := st.counter + 1 }

/-- The "save" branch: pop the path (an `IndexError` aborts on an empty
argument list), skip with a warning on an existing directory, on an existing
file without "force", and on an existing file with a second argument other
than "force"; otherwise emit the save statement. -/
def saveCmd (fs : FS) (st : St) (args : List String) : Except Err St :=
  match args with
  | [] => .error .indexError
  | saveFile :: rest =>
    if fs.isdir saveFile then
      .ok { st with warnings := st.warnings ++ [.isDirectory saveFile] }
    else if fs.pathExists saveFile then
      match rest with
      | [] => .ok { st with warnings := st.warnings ++ [.alreadyExists saveFile, .noForce] }
      | w :: _ =>
        if w ≠ "force" then
          .ok { st with warnings := st.warnings ++ [.alreadyExists saveFile, .invalidForce] }
        else
          .ok { st with warnings := st.warnings ++ [.alreadyExists saveFile, .forcing],
                        cmdStack := st.cmdStack ++ [.save saveFile] }
    else .ok { st with cmdStack := st.cmdStack ++ [.save saveFile] }

/-- `' '.join(args) if args else ''`. -/
def joinArgs (args : List String) : String :=
  if args ≠ [] then String.intercalate (" ") args else ""

/-- The fall-through branch: resolve the command name as a node class and
emit a node-creation statement with the space-joined argument string. -/
def classCmd (catalog : List String) (st : St) (cmd : String) (args : List String) :
    Except Err St :=
  match getNukeNode catalog cmd with
  | .error e => .error e
  | .ok node => .ok { st with cmdStack := st.cmdStack ++ [.createNode node (joinArgs args)] }

/-- The dispatch of the `parseCLI` loop body, mirroring its `if`/`elif`
chain: "set" and "push" require exactly one argument to be recognized,
"execute" and "save" are recognized with any argument list, and everything
else is a node-class candidate. -/
def dispatchCmd (catalog : List String) (fs : FS) (st : St) (cmd : String)
    (args : List String) : Except Err St :=
  if cmd = "set" ∧ args.length = 1 then .ok (setCmd st (args.headD ""))
  else if cmd = "push" ∧ args.length = 1 then pushCmd st (args.headD "")
  else if cmd = "execute" then .ok (execCmd st args)
  else if cmd = "save" then saveCmd fs st args
  else classCmd catalog st cmd args

/-- One iteration of the `parseCLI` loop: parse the segment and dispatch. -/
def processLine (catalog : List String) (fs : FS) (st : St) (line : List Char) :
    Except Err St :=
  match parseLinePy line with
  | none => .error .indexError
  | some (cmd, args) => dispatchCmd catalog fs st cmd args

/-- The whole `parseCLI` loop over the segment list. -/
def processLines (catalog : List String) (fs : FS) :
    List (List Char) → St → Except Err St
  | [], st => .ok st
  | l :: ls, st =>
    match processLine catalog fs st l with
    | .error e => .error e
    | .ok st' => processLines catalog fs ls st'

/-- Run the compiler loop on a raw input string from the initial state. -/
def runCLIState (catalog : List String) (fs : FS) (raw : String) : Except Err St :=
  processLines catalog fs (segmentsPy raw.toList) initSt

/-- The deferred execution appender: one execute statement per request, with
the recorded range embedded verbatim when present and the first/last knob
read otherwise. -/
def execStmt : String × Option String → Stmt
  | (id, some range) => .executeRange id range
  | (id, none) => .executeKnobs id

/-- The final statement list: the main walk's statements followed by the
deferred execute statements in registration order. -/
def finalStmts (st : St) : List Stmt :=
  st.cmdStack ++ st.execNodes.map execStmt

/-- `parseCLI`: compile a raw input string to the final TCL program string,
statements joined by semicolons with a trailing semicolon. -/
def parseCLI (catalog : List String) (fs : FS) (raw : String) : Except Err String :=
  match runCLIState catalog fs raw with
  | .error e => .error e
  | .ok st => .ok (String.intercalate (";") ((finalStmts st).map Stmt.render) ++ ";")

/-- Plain whitespace splitting, the behaviour of the tokenizer on segments
without an opening brace. -/
def wsTokens (s : List Char) : List (List Char) :=
  match s with
  | [] => []
  | c :: rest =>
    if isPySpace c then wsTokens rest
    else (c :: rest.takeWhile notSpace) :: wsTokens (rest.dropWhile notSpace)
termination_by s.length
decreasing_by
  · simp only [List.length_cons]; omega
  · simp only [List.length_cons]
    exact Nat.lt_succ_of_le (List.dropWhile_sublist (l := rest) notSpace).length_le

/-- The optional frame range registered by a segment, when the segment is an
"execute" command: `some args.head?` in that case, `none` otherwise. -/
def lineExecRange (l : List Char) : Option (Option String) :=
  match parseLinePy l with
  | none => none
  | some (cmd, args) => if cmd = "execute" then some args.head? else none

/-- The optional frame ranges of all "execute" commands of a segment list, in
encounter order. -/
def execRanges (ls : List (List Char)) : List (Option String) :=
  ls.filterMap lineExecRange

/-- Whether a segment parses with a command name that is none of the four
keywords, i.e. is dispatched to the node-class branch. -/
def isClassLine (l : List Char) : Bool :=
  match parseLinePy l with
  | none => false
  | some (cmd, _) => cmd != "set" && cmd != "push" && cmd != "execute" && cmd != "save"

/-- The node-creation statement a class-flag segment compiles to. -/
def createsNodeFor (catalog : List String) (l : List Char) (s : Stmt) : Prop :=
  ∃ cmd args node, parseLinePy l = some (cmd, args) ∧
    getNukeNode catalog cmd = .ok node ∧ s = .createNode node (joinArgs args)

/-- Relation between a segment and the pair (statement block, execution
requests) the loop body produces while processing exactly that segment: an
"execute" segment's block is the single capture statement `setVar id` whose
identifier is the one registered for that segment's request, and no other
segment registers a request. -/
def execCaptureAt (l : List Char) (pc : List Stmt × List (String × Option String)) : Prop :=
  ∀ cmd args, parseLinePy l = some (cmd, args) →
    (cmd = "execute" → ∃ id, pc.1 = [Stmt.setVar id] ∧ pc.2 = [(id, args.head?)]) ∧
    (cmd ≠ "execute" → pc.2 = [])

/-- Extract the final state of a successful run (used to name concrete
states in closed statements). -/
def extractSt (e : Except Err St) : St :=
  match e with
  | .ok st => st
  | .error _ => initSt

/-- A filesystem with one directory and one existing file, for concrete save
scenarios. -/
def fsTest : FS :=
  { isdir := fun p => p == "/dir", pathExists := fun p => p == "/dir" || p == "/file.nk" }

/-- Concrete final state of a run with two execute requests. -/
def c1St : St :=
  extractSt (runCLIState ["Write"] fsEmpty ("-Write file.exr -execute 1-10 -Write b.exr -execute"))

/-- Concrete final state of a run that re-sets the pre-seeded "0" and sets a
variable "x". -/
def c3St : St :=
  extractSt (runCLIState [] fsEmpty ("-set 0 -set x"))

/-- Concrete final state of a run consisting of two class flags. -/
def c4St : St :=
  extractSt (runCLIState ["Blur", "Grade"] fsEmpty ("-Blur size 2 -Grade"))

/-! ### Tokenizer lemmas -/

theorem braceTok_snd_length (rest tok rem : List Char)
    (h : braceTok rest = some (tok, rem)) : rem.length ≤ rest.length := by
  unfold braceTok at h
  split at h
  · exact absurd h (by simp)
  · split at h
    · simp only [Option.some.injEq, Prod.mk.injEq] at h
      rw [← h.2, List.length_drop]
      omega
    · exact absurd h (by simp)

theorem nextTok_snd_length (c : Char) (rest : List Char) :
    (nextTok c rest).2.length ≤ rest.length := by
  unfold nextTok
  split
  · rcases hb : braceTok rest with _ | ⟨tok, rem⟩
    · simpa [hb] using (List.dropWhile_sublist (l := rest) notSpace).length_le
    · simpa [hb] using braceTok_snd_length rest tok rem hb
  · simpa using (List.dropWhile_sublist (l := rest) notSpace).length_le

theorem findallArgF_congr : ∀ (f1 f2 : Nat) (s : List Char),
    s.length ≤ f1 → s.length ≤ f2 → findallArgF f1 s = findallArgF f2 s
  | 0, f2, s, h1, _ => by
    have hs : s = [] := List.eq_nil_of_length_eq_zero (Nat.le_zero.mp h1)
    subst hs
    cases f2 <;> rfl
  | _ + 1, f2, [], _, _ => by cases f2 <;> rfl
  | _ + 1, 0, c :: rest, _, h2 => by simp at h2
  | f1 + 1, f2 + 1, c :: rest, h1, h2 => by
    simp only [List.length_cons, Nat.add_le_add_iff_right] at h1 h2
    simp only [findallArgF]
    by_cases hc : isPySpace c = true
    · rw [if_pos hc, if_pos hc]
      exact findallArgF_congr f1 f2 rest h1 h2
    · rw [if_neg hc, if_neg hc]
      have hle := nextTok_snd_length c rest
      rw [findallArgF_congr f1 f2 (nextTok c rest).2 (le_trans hle h1) (le_trans hle h2)]

theorem findallArg_cons (c : Char) (rest : List Char) :
    findallArg (c :: rest) =
      if isPySpace c then findallArg rest
      else (nextTok c rest).1 :: findallArg (nextTok c rest).2 := by
  unfold findallArg
  simp only [List.length_cons, findallArgF]
  by_cases hc : isPySpace c = true
  · rw [if_pos hc, if_pos hc]
  · rw [if_neg hc, if_neg hc]
    rw [findallArgF_congr rest.length (nextTok c rest).2.length (nextTok c rest).2
      (nextTok_snd_length c rest) le_rfl]

theorem findallArg_no_brace : ∀ s : List Char, '{' ∉ s → findallArg s = wsTokens s
  | [], _ => by rw [wsTokens]; rfl
  | c :: rest, h => by
    have hc' : c ≠ '{' := fun he => h (he ▸ List.mem_cons_self c rest)
    have hrest : '{' ∉ rest := fun hm => h (List.mem_cons_of_mem c hm)
    rw [findallArg_cons, wsTokens]
    by_cases hc : isPySpace c = true
    · rw [if_pos hc, if_pos hc]
      exact findallArg_no_brace rest hrest
    · rw [if_neg hc, if_neg hc]
      have hnt : nextTok c rest = (c :: rest.takeWhile notSpace, rest.dropWhile notSpace) := by
        unfold nextTok
        rw [if_neg hc']
      rw [hnt]
      rw [findallArg_no_brace (rest.dropWhile notSpace)
        (fun hm => hrest ((List.dropWhile_sublist notSpace).mem hm))]
termination_by s => s.length
decreasing_by
  · simp only [List.length_cons]; omega
  · simp only [List.length_cons]
    exact Nat.lt_succ_of_le (List.dropWhile_sublist (l := rest) notSpace).length_le

theorem takeWhile_all (p : Char → Bool) : ∀ l : List Char,
    (∀ c ∈ l, p c = true) → l.takeWhile p = l
  | [], _ => rfl
  | c :: rest, h => by
    rw [List.takeWhile_cons, h c (List.mem_cons_self c rest)]
    simpa using takeWhile_all p rest (fun x hx => h x (List.mem_cons_of_mem c hx))

theorem lastIdxOf_not_mem (c : Char) : ∀ l : List Char, c ∉ l → lastIdxOf c l = none
  | [], _ => rfl
  | a :: rest, h => by
    have ha : a ≠ c := fun he => h (he ▸ List.mem_cons_self a rest)
    rw [lastIdxOf, lastIdxOf_not_mem c rest (fun hm => h (List.mem_cons_of_mem a hm))]
    simp [ha]

theorem lastIdxOf_append (c : Char) : ∀ (pre suf : List Char), c ∉ suf →
    lastIdxOf c (pre ++ c :: suf) = some pre.length
  | [], suf, h => by
    rw [List.nil_append, lastIdxOf, lastIdxOf_not_mem c suf h]
    simp
  | a :: pre, suf, h => by
    rw [List.cons_append, lastIdxOf, lastIdxOf_append c pre suf h]
    simp

theorem findallArg_brace_group (inner rest : List Char)
    (hne : inner ≠ []) (hcls : ∀ c ∈ inner, isArgClass c = true)
    (hrest : '}' ∉ rest.takeWhile isArgClass) :
    findallArg ('{' :: (inner ++ '}' :: rest)) =
      ('{' :: (inner ++ ['}'])) :: findallArg rest := by
  have hrun : (inner ++ '}' :: rest).takeWhile isArgClass =
      inner ++ '}' :: rest.takeWhile isArgClass := by
    rw [List.takeWhile_append]
    rw [takeWhile_all isArgClass inner hcls]
    simp [List.takeWhile_cons, show isArgClass '}' = true from rfl]
  have hlast : lastIdxOf '}' ((inner ++ '}' :: rest).takeWhile isArgClass) =
      some inner.length := by
    rw [hrun]
    exact lastIdxOf_append '}' inner (rest.takeWhile isArgClass) hrest
  have h1 : 1 ≤ inner.length := by
    cases inner with
    | nil => exact absurd rfl hne
    | cons a l => simp
  have htake : ((inner ++ '}' :: rest).takeWhile isArgClass).take inner.length = inner := by
    rw [hrun, List.take_left]
  have hdrop : (inner ++ '}' :: rest).drop (inner.length + 1) = rest := by
    have hsplit : inner ++ '}' :: rest = (inner ++ ['}']) ++ rest := by simp
    rw [hsplit, show inner.length + 1 = (inner ++ ['}']).length by simp, List.drop_left]
  have hbt : braceTok (inner ++ '}' :: rest) = some ('{' :: (inner ++ ['}']), rest) := by
    unfold braceTok
    rw [hlast]
    show (if 1 ≤ inner.length then
        some ('{' :: ((inner ++ '}' :: rest).takeWhile isArgClass).take inner.length ++ ['}'],
          (inner ++ '}' :: rest).drop (inner.length + 1))
      else none) = some ('{' :: (inner ++ ['}']), rest)
    rw [if_pos h1, htake, hdrop]
    simp
  have hnt : nextTok '{' (inner ++ '}' :: rest) = ('{' :: (inner ++ ['}']), rest) := by
    unfold nextTok
    rw [if_pos rfl, hbt]
  rw [findallArg_cons, if_neg (by decide : ¬ isPySpace '{' = true), hnt]

/-! ### Segmentation lemmas -/

theorem hasSep_cons (c : Char) (rest : List Char) (h : hasSep (c :: rest) = false) :
    ¬(c = ' ' ∧ rest.head? = some '-') ∧ hasSep rest = false := by
  rw [hasSep] at h
  have h' := Bool.or_eq_false_iff.mp h
  refine ⟨?_, h'.2⟩
  rintro ⟨hc, hd⟩
  have h1 := h'.1
  rw [hc, hd] at h1
  simp at h1

theorem splitDash_cons_sep (rest : List Char) :
    splitDash (' ' :: '-' :: rest) = [] :: splitDash rest := rfl

theorem splitDash_cons_step (c : Char) (rest : List Char)
    (h : ¬(c = ' ' ∧ rest.head? = some '-')) :
    splitDash (c :: rest) =
      match splitDash rest with
      | [] => [[c]]
      | seg :: segs => (c :: seg) :: segs := by
  rw [splitDash.eq_def]
  split
  · rename_i heq
    exact absurd heq (by simp)
  · rename_i tail heq
    injection heq with h1 h2
    exact absurd ⟨h1, by rw [h2]; rfl⟩ h
  · rename_i c' rest' hne heq
    injection heq with h1 h2
    subst h1
    subst h2
    rfl

theorem splitDash_ne_nil : ∀ l : List Char, splitDash l ≠ []
  | [] => by rw [splitDash]; simp
  | c :: rest => by
    by_cases h : c = ' ' ∧ rest.head? = some '-'
    · obtain ⟨hc, hd⟩ := h
      subst hc
      cases rest with
      | nil => simp at hd
      | cons d rest' =>
        simp only [List.head?_cons, Option.some.injEq] at hd
        subst hd
        rw [splitDash_cons_sep]
        simp
    · rw [splitDash_cons_step c rest h]
      rcases hs : splitDash rest with _ | ⟨seg, segs⟩ <;> simp

theorem splitDash_no_sep : ∀ a : List Char, hasSep a = false → splitDash a = [a]
  | [], _ => rfl
  | c :: rest, h => by
    obtain ⟨hhead, hrest⟩ := hasSep_cons c rest h
    rw [splitDash_cons_step c rest hhead, splitDash_no_sep rest hrest]

theorem splitDash_append_sep : ∀ (a b : List Char), hasSep a = false →
    splitDash (a ++ ' ' :: '-' :: b) = a :: splitDash b
  | [], b, _ => by rw [List.nil_append, splitDash_cons_sep]
  | c :: a', b, h => by
    obtain ⟨hhead, ha'⟩ := hasSep_cons c a' h
    have hstep : ¬(c = ' ' ∧ (a' ++ ' ' :: '-' :: b).head? = some '-') := by
      rintro ⟨hc, hd⟩
      cases a' with
      | nil =>
        rw [List.nil_append] at hd
        simp at hd
      | cons d a'' =>
        rw [List.cons_append] at hd
        simp only [List.head?_cons, Option.some.injEq] at hd
        exact hhead ⟨hc, by rw [hd]; rfl⟩
    rw [List.cons_append, splitDash_cons_step c (a' ++ ' ' :: '-' :: b) hstep,
      splitDash_append_sep a' b ha']

theorem trimPy_cons_space (a : List Char) : trimPy (' ' :: a) = trimPy a := by
  unfold trimPy
  rw [List.dropWhile_cons_of_pos (by decide : isPySpace ' ' = true)]

/-! ### Sorting lemmas -/

theorem lexLe_cons_iff (a b : Char) (as bs : List Char) :
    lexLe (a :: as) (b :: bs) = true ↔
      a.toNat < b.toNat ∨ (a.toNat = b.toNat ∧ lexLe as bs = true) := by
  rw [lexLe]
  by_cases h1 : a.toNat < b.toNat
  · rw [if_pos h1]
    simp [h1]
  · by_cases h2 : b.toNat < a.toNat
    · rw [if_neg h1, if_pos h2]
      simp only [Bool.false_eq_true, false_iff]
      rintro (h | ⟨h, _⟩) <;> omega
    · have he : a.toNat = b.toNat := by omega
      rw [if_neg h1, if_neg h2]
      simp [he, h1]

theorem lexLe_refl : ∀ l : List Char, lexLe l l = true
  | [] => rfl
  | a :: as => (lexLe_cons_iff a a as as).mpr (Or.inr ⟨rfl, lexLe_refl as⟩)

theorem lexLe_total : ∀ a b : List Char, lexLe a b = true ∨ lexLe b a = true
  | [], _ => Or.inl rfl
  | _ :: _, [] => Or.inr rfl
  | a :: as, b :: bs => by
    rcases Nat.lt_trichotomy a.toNat b.toNat with h | h | h
    · exact Or.inl ((lexLe_cons_iff a b as bs).mpr (Or.inl h))
    · rcases lexLe_total as bs with h' | h'
      · exact Or.inl ((lexLe_cons_iff a b as bs).mpr (Or.inr ⟨h, h'⟩))
      · exact Or.inr ((lexLe_cons_iff b a bs as).mpr (Or.inr ⟨h.symm, h'⟩))
    · exact Or.inr ((lexLe_cons_iff b a bs as).mpr (Or.inl h))

theorem lexLe_trans : ∀ a b c : List Char,
    lexLe a b = true → lexLe b c = true → lexLe a c = true
  | [], _, _, _, _ => rfl
  | _ :: _, [], _, hab, _ => by rw [lexLe] at hab; exact absurd hab (by simp)
  | _ :: _, _ :: _, [], _, hbc => by rw [lexLe] at hbc; exact absurd hbc (by simp)
  | a :: as, b :: bs, c :: cs, hab, hbc => by
    rcases (lexLe_cons_iff a b as bs).mp hab with h | ⟨he, hab'⟩ <;>
      rcases (lexLe_cons_iff b c bs cs).mp hbc with h' | ⟨he', hbc'⟩
    · exact (lexLe_cons_iff a c as cs).mpr (Or.inl (by omega))
    · exact (lexLe_cons_iff a c as cs).mpr (Or.inl (by omega))
    · exact (lexLe_cons_iff a c as cs).mpr (Or.inl (by omega))
    · exact (lexLe_cons_iff a c as cs).mpr
        (Or.inr ⟨by omega, lexLe_trans as bs cs hab' hbc'⟩)

theorem strLe_refl (a : String) : strLe a a = true := lexLe_refl a.toList

theorem strLe_total (a b : String) : strLe a b = true ∨ strLe b a = true :=
  lexLe_total a.toList b.toList

theorem strLe_trans {a b c : String} (h1 : strLe a b = true) (h2 : strLe b c = true) :
    strLe a c = true :=
  lexLe_trans a.toList b.toList c.toList h1 h2

theorem insertSorted_ne_nil (x : String) (l : List String) : insertSorted x l ≠ [] := by
  match l with
  | [] => rw [insertSorted]; simp
  | y :: ys =>
    rw [insertSorted]
    by_cases h : strLe x y = true
    · rw [if_pos h]; simp
    · rw [if_neg h]; simp

theorem mem_insertSorted (x y : String) : ∀ l : List String,
    (y ∈ insertSorted x l ↔ y = x ∨ y ∈ l)
  | [] => by rw [insertSorted]; simp
  | z :: zs => by
    rw [insertSorted]
    by_cases h : strLe x z = true
    · rw [if_pos h]; simp
    · rw [if_neg h]
      simp only [List.mem_cons, mem_insertSorted x y zs]
      tauto

theorem pairwise_insertSorted (x : String) : ∀ l : List String,
    l.Pairwise (fun a b => strLe a b = true) →
    (insertSorted x l).Pairwise (fun a b => strLe a b = true)
  | [], _ => by rw [insertSorted]; simp
  | y :: ys, h => by
    rw [insertSorted]
    rcases List.pairwise_cons.mp h with ⟨hy, hys⟩
    by_cases hxy : strLe x y = true
    · rw [if_pos hxy]
      refine List.pairwise_cons.mpr ⟨?_, h⟩
      intro z hz
      rcases List.mem_cons.mp hz with hz | hz
      · rwa [hz]
      · exact strLe_trans hxy (hy z hz)
    · rw [if_neg hxy]
      refine List.pairwise_cons.mpr ⟨?_, pairwise_insertSorted x ys hys⟩
      intro z hz
      rcases (mem_insertSorted x z ys).mp hz with hz | hz
      · rw [hz]
        rcases strLe_total x y with h' | h'
        · exact absurd h' hxy
        · exact h'
      · exact hy z hz

theorem mem_pySort (y : String) : ∀ l : List String, y ∈ pySort l ↔ y ∈ l
  | [] => by rw [pySort]
  | x :: xs => by
    rw [pySort, mem_insertSorted x y (pySort xs), mem_pySort y xs]
    simp

theorem pairwise_pySort : ∀ l : List String,
    (pySort l).Pairwise (fun a b => strLe a b = true)
  | [] => by rw [pySort]; simp
  | x :: xs => pairwise_insertSorted x (pySort xs) (pairwise_pySort xs)

theorem pySort_ne_nil (l : List String) (h : l ≠ []) : pySort l ≠ [] := by
  match l with
  | [] => exact absurd rfl h
  | x :: xs => rw [pySort]; exact insertSorted_ne_nil x (pySort xs)

theorem getLastD_mem_of_ne_nil (d : String) : ∀ l : List String, l ≠ [] → l.getLastD d ∈ l
  | [], h => absurd rfl h
  | [x], _ => by simp
  | x :: y :: ys, _ => by
    rw [List.getLastD_cons]
    exact List.mem_cons_of_mem x (getLastD_mem_of_ne_nil x (y :: ys) (by simp))

theorem pairwise_le_getLastD (d : String) : ∀ l : List String,
    l.Pairwise (fun a b => strLe a b = true) → ∀ x ∈ l, strLe x (l.getLastD d) = true
  | [], _, x, hx => absurd hx (by simp)
  | y :: ys, h, x, hx => by
    rw [List.getLastD_cons]
    rcases List.pairwise_cons.mp h with ⟨hy, hys⟩
    rcases List.mem_cons.mp hx with hxy | hxys
    · match ys with
      | [] => rw [hxy]; exact strLe_refl y
      | z :: zs =>
        rw [hxy]
        exact strLe_trans (hy z (by simp))
          (pairwise_le_getLastD y (z :: zs) hys z (by simp))
    · exact pairwise_le_getLastD y ys hys x hxys

theorem pySortLast_mem (l : List String) (h : l ≠ []) : pySortLast l ∈ l := by
  unfold pySortLast
  rw [← mem_pySort]
  exact getLastD_mem_of_ne_nil "" (pySort l) (pySort_ne_nil l h)

theorem pySortLast_ub (l : List String) (x : String) (hx : x ∈ l) :
    strLe x (pySortLast l) = true := by
  unfold pySortLast
  exact pairwise_le_getLastD "" (pySort l) (pairwise_pySort l) x ((mem_pySort x l).mpr hx)

/-! ### Dispatch lemmas -/

theorem dispatchCmd_set (catalog : List String) (fs : FS) (st : St) (v : String) :
    dispatchCmd catalog fs st ("set") [v] = .ok (setCmd st v) := by
  unfold dispatchCmd
  rw [if_pos ⟨rfl, rfl⟩]
  rfl

theorem dispatchCmd_push (catalog : List String) (fs : FS) (st : St) (v : String) :
    dispatchCmd catalog fs st ("push") [v] = pushCmd st v := by
  unfold dispatchCmd
  rw [if_neg (by simp), if_pos ⟨rfl, rfl⟩]
  rfl

theorem dispatchCmd_execute (catalog : List String) (fs : FS) (st : St) (args : List String) :
    dispatchCmd catalog fs st ("execute") args = .ok (execCmd st args) := by
  unfold dispatchCmd
  rw [if_neg (by simp), if_neg (by simp), if_pos rfl]

theorem dispatchCmd_save (catalog : List String) (fs : FS) (st : St) (args : List String) :
    dispatchCmd catalog fs st ("save") args = saveCmd fs st args := by
  unfold dispatchCmd
  rw [if_neg (by simp), if_neg (by simp), if_neg (by simp), if_pos rfl]

theorem dispatchCmd_class (catalog : List String) (fs : FS) (st : St) (cmd : String)
    (args : List String)
    (h1 : ¬(cmd = "set" ∧ args.length = 1)) (h2 : ¬(cmd = "push" ∧ args.length = 1))
    (h3 : cmd ≠ "execute") (h4 : cmd ≠ "save") :
    dispatchCmd catalog fs st cmd args = classCmd catalog st cmd args := by
  unfold dispatchCmd
  rw [if_neg h1, if_neg h2, if_neg h3, if_neg h4]

theorem processLine_some (catalog : List String) (fs : FS) (st : St) (l : List Char)
    (cmd : String) (args : List String) (hp : parseLinePy l = some (cmd, args)) :
    processLine catalog fs st l = dispatchCmd catalog fs st cmd args := by
  unfold processLine
  rw [hp]

theorem processLine_none (catalog : List String) (fs : FS) (st : St) (l : List Char)
    (hp : parseLinePy l = none) :
    processLine catalog fs st l = .error .indexError := by
  unfold processLine
  rw [hp]

/-! ### Branch lemmas -/

theorem pushCmd_absent (st : St) (v : String) (h : st.varMap.lookup v = none) :
    pushCmd st v = .error (.keyError v) := by
  simp [pushCmd, h]

theorem pushCmd_zero (st : St) (id : String) (h : st.varMap.lookup ("0") = some id) :
    pushCmd st ("0") = .ok { st with cmdStack := st.cmdStack ++ [.pushZero] } := by
  simp [pushCmd, h]

theorem pushCmd_found (st : St) (v id : String) (h : st.varMap.lookup v = some id)
    (hv : v ≠ "0") :
    pushCmd st v = .ok { st with cmdStack := st.cmdStack ++ [.pushVar id] } := by
  simp [pushCmd, h, hv]

theorem saveCmd_nil (fs : FS) (st : St) : saveCmd fs st [] = .error .indexError := rfl

theorem saveCmd_isdir (fs : FS) (st : St) (p : String) (rest : List String)
    (hd : fs.isdir p = true) :
    saveCmd fs st (p :: rest) = .ok { st with warnings := st.warnings ++ [.isDirectory p] } := by
  simp [saveCmd, hd]

theorem saveCmd_exists_noforce (fs : FS) (st : St) (p : String)
    (hd : fs.isdir p = false) (he : fs.pathExists p = true) :
    saveCmd fs st [p] =
      .ok { st with warnings := st.warnings ++ [.alreadyExists p, .noForce] } := by
  simp [saveCmd, hd, he]

theorem saveCmd_exists_badforce (fs : FS) (st : St) (p w : String) (wrest : List String)
    (hd : fs.isdir p = false) (he : fs.pathExists p = true) (hw : w ≠ "force") :
    saveCmd fs st (p :: w :: wrest) =
      .ok { st with warnings := st.warnings ++ [.alreadyExists p, .invalidForce] } := by
  simp [saveCmd, hd, he, hw]

theorem saveCmd_exists_force (fs : FS) (st : St) (p : String) (wrest : List String)
    (hd : fs.isdir p = false) (he : fs.pathExists p = true) :
    saveCmd fs st (p :: "force" :: wrest) =
      .ok { st with warnings := st.warnings ++ [.alreadyExists p, .forcing],
                    cmdStack := st.cmdStack ++ [.save p] } := by
  simp [saveCmd, hd, he]

theorem saveCmd_fresh (fs : FS) (st : St) (p : String) (rest : List String)
    (hd : fs.isdir p = false) (he : fs.pathExists p = false) :
    saveCmd fs st (p :: rest) = .ok { st with cmdStack := st.cmdStack ++ [.save p] } := by
  simp [saveCmd, hd, he]

theorem classCmd_ok (catalog : List String) (st : St) (cmd : String) (args : List String)
    (node : String) (h : getNukeNode catalog cmd = .ok node) :
    classCmd catalog st cmd args =
      .ok { st with cmdStack := st.cmdStack ++ [.createNode node (joinArgs args)] } := by
  simp [classCmd, h]

theorem classCmd_err (catalog : List String) (st : St) (cmd : String) (args : List String)
    (e : Err) (h : getNukeNode catalog cmd = .error e) :
    classCmd catalog st cmd args = .error e := by
  simp [classCmd, h]

/-- Exhaustive case split for a successful `saveCmd`: in every case the new
state extends `cmdStack` by at most one save statement and leaves the other
compiler fields unchanged except `warnings`. -/
theorem saveCmd_ok_cases (fs : FS) (st : St) (args : List String) (st' : St)
    (h : saveCmd fs st args = .ok st') :
    ∃ news newWarns, (news = [] ∨ ∃ p, news = [Stmt.save p]) ∧
      st' = { st with cmdStack := st.cmdStack ++ news,
                      warnings := st.warnings ++ newWarns } := by
  rcases args with _ | ⟨p, rest⟩
  · rw [saveCmd_nil] at h
    exact absurd h (by simp)
  · by_cases hd : fs.isdir p = true
    · rw [saveCmd_isdir fs st p rest hd] at h
      injection h with h
      exact ⟨[], [.isDirectory p], Or.inl rfl, by rw [← h]; simp⟩
    · rw [Bool.not_eq_true] at hd
      by_cases he : fs.pathExists p = true
      · rcases rest with _ | ⟨w, wrest⟩
        · rw [saveCmd_exists_noforce fs st p hd he] at h
          injection h with h
          exact ⟨[], [.alreadyExists p, .noForce], Or.inl rfl, by rw [← h]; simp⟩
        · by_cases hw : w = "force"
          · subst hw
            rw [saveCmd_exists_force fs st p wrest hd he] at h
            injection h with h
            exact ⟨[.save p], [.alreadyExists p, .forcing], Or.inr ⟨p, rfl⟩, by rw [← h]⟩
          · rw [saveCmd_exists_badforce fs st p w wrest hd he hw] at h
            injection h with h
            exact ⟨[], [.alreadyExists p, .invalidForce], Or.inl rfl, by rw [← h]; simp⟩
      · rw [Bool.not_eq_true] at he
        rw [saveCmd_fresh fs st p rest hd he] at h
        injection h with h
        exact ⟨[.save p], [], Or.inr ⟨p, rfl⟩, by rw [← h]; simp⟩

/-! ### Variable-table lemmas -/

theorem lookup_cons_isSome (k v id : String) (m : List (String × String))
    (h : (m.lookup k).isSome = true) : (((v, id) :: m).lookup k).isSome = true := by
  rw [List.lookup_cons]
  cases hkv : (k == v) with
  | false => simpa [hkv] using h
  | true => simp [hkv]

theorem processLine_varMap_mono (catalog : List String) (fs : FS) (st : St) (l : List Char)
    (st' : St) (h : processLine catalog fs st l = .ok st') (k : String)
    (hk : (st.varMap.lookup k).isSome = true) : (st'.varMap.lookup k).isSome = true := by
  rcases hp : parseLinePy l with _ | ⟨cmd, args⟩
  · rw [processLine_none catalog fs st l hp] at h
    exact absurd h (by simp)
  · rw [processLine_some catalog fs st l cmd args hp] at h
    unfold dispatchCmd at h
    split_ifs at h with h1 h2 h3 h4
    · injection h with h
      rw [← h]
      exact lookup_cons_isSome k (args.headD "") _ st.varMap hk
    · rcases hlk : st.varMap.lookup (args.headD "") with _ | id
      · rw [pushCmd_absent st _ hlk] at h
        exact absurd h (by simp)
      · by_cases hv : args.headD "" = "0"
        · rw [hv] at hlk
          rw [hv, pushCmd_zero st id hlk] at h
          injection h with h
          rw [← h]
          exact hk
        · rw [pushCmd_found st _ id hlk hv] at h
          injection h with h
          rw [← h]
          exact hk
    · injection h with h
      rw [← h]
      exact hk
    · rcases saveCmd_ok_cases fs st args st' h with ⟨news, newWarns, _, hst⟩
      rw [hst]
      exact hk
    · rcases hg : getNukeNode catalog cmd with e | node
      · rw [classCmd_err catalog st cmd args e hg] at h
        exact absurd h (by simp)
      · rw [classCmd_ok catalog st cmd args node hg] at h
        injection h with h
        rw [← h]
        exact hk

theorem processLines_varMap_mono (catalog : List String) (fs : FS) :
    ∀ (ls : List (List Char)) (st st' : St),
    processLines catalog fs ls st = .ok st' → ∀ k, (st.varMap.lookup k).isSome = true →
    (st'.varMap.lookup k).isSome = true
  | [], st, st', h, k, hk => by
    unfold processLines at h
    injection h with h
    rw [← h]
    exact hk
  | l :: ls, st, st', h, k, hk => by
    unfold processLines at h
    rcases hstep : processLine catalog fs st l with e | st1
    · rw [hstep] at h
      exact absurd h (by simp)
    · rw [hstep] at h
      exact processLines_varMap_mono catalog fs ls st1 st' h k
        (processLine_varMap_mono catalog fs st l st1 hstep k hk)

theorem runCLIState_lookup_zero (catalog : List String) (fs : FS) (raw : String) (st : St)
    (h : runCLIState catalog fs raw = .ok st) :
    ((st.varMap.lookup ("0"))).isSome = true := by
  unfold runCLIState at h
  exact processLines_varMap_mono catalog fs (segmentsPy raw.toList) initSt st h ("0") rfl

/-! ### Effect of one loop iteration and of the whole loop -/

theorem lineExecRange_some (l : List Char) (cmd : String) (args : List String)
    (hp : parseLinePy l = some (cmd, args)) :
    lineExecRange l = if cmd = "execute" then some args.head? else none := by
  unfold lineExecRange
  rw [hp]

theorem isClassLine_some (l : List Char) (cmd : String) (args : List String)
    (hp : parseLinePy l = some (cmd, args)) :
    isClassLine l = (cmd != "set" && cmd != "push" && cmd != "execute" && cmd != "save") := by
  unfold isClassLine
  rw [hp]

theorem processLine_effect (catalog : List String) (fs : FS) (st : St) (l : List Char)
    (st' : St) (h : processLine catalog fs st l = .ok st') :
    ∃ news newe,
      st'.cmdStack = st.cmdStack ++ news ∧
      st'.execNodes = st.execNodes ++ newe ∧
      (∀ s ∈ news, s.isExec = false) ∧
      newe.map Prod.snd = (lineExecRange l).toList ∧
      (∀ p ∈ newe, Stmt.setVar p.1 ∈ news) := by
  rcases hp : parseLinePy l with _ | ⟨cmd, args⟩
  · rw [processLine_none catalog fs st l hp] at h
    exact absurd h (by simp)
  · have hrange := lineExecRange_some l cmd args hp
    rw [processLine_some catalog fs st l cmd args hp] at h
    unfold dispatchCmd at h
    split_ifs at h with h1 h2 h3 h4
    · obtain ⟨hc, _⟩ := h1
      subst hc
      injection h with h
      refine ⟨[.setVar (generateNodeID (args.headD "") st.counter)], [], ?_, ?_, ?_, ?_, ?_⟩
      · rw [← h]; rfl
      · rw [← h]; simp [setCmd]
      · intro s hs
        rcases List.mem_singleton.mp hs with rfl
        rfl
      · rw [hrange, if_neg (by decide : ¬("set" : String) = "execute")]
        simp
      · simp
    · obtain ⟨hc, _⟩ := h2
      subst hc
      rcases hlk : st.varMap.lookup (args.headD "") with _ | id
      · rw [pushCmd_absent st _ hlk] at h
        exact absurd h (by simp)
      · by_cases hv : args.headD "" = "0"
        · rw [hv] at hlk
          rw [hv, pushCmd_zero st id hlk] at h
          injection h with h
          refine ⟨[.pushZero], [], by rw [← h], by rw [← h]; simp, ?_, ?_, by simp⟩
          · intro s hs
            rcases List.mem_singleton.mp hs with rfl
            rfl
          · rw [hrange, if_neg (by decide : ¬("push" : String) = "execute")]
            simp
        · rw [pushCmd_found st _ id hlk hv] at h
          injection h with h
          refine ⟨[.pushVar id], [], by rw [← h], by rw [← h]; simp, ?_, ?_, by simp⟩
          · intro s hs
            rcases List.mem_singleton.mp hs with rfl
            rfl
          · rw [hrange, if_neg (by decide : ¬("push" : String) = "execute")]
            simp
    · subst h3
      injection h with h
      refine ⟨[.setVar (generateNodeID ("execute") st.counter)],
        [(generateNodeID ("execute") st.counter, args.head?)], ?_, ?_, ?_, ?_, ?_⟩
      · rw [← h]; rfl
      · rw [← h]; rfl
      · intro s hs
        rcases List.mem_singleton.mp hs with rfl
        rfl
      · rw [hrange, if_pos rfl]
        simp [Option.toList]
      · intro p hp'
        rcases List.mem_singleton.mp hp' with rfl
        simp
    · subst h4
      rcases saveCmd_ok_cases fs st args st' h with ⟨news, newWarns, hshape, hst⟩
      refine ⟨news, [], by rw [hst], by rw [hst]; simp, ?_, ?_, by simp⟩
      · intro s hs
        rcases hshape with rfl | ⟨p, rfl⟩
        · exact absurd hs (by simp)
        · rcases List.mem_singleton.mp hs with rfl
          rfl
      · rw [hrange, if_neg (by decide : ¬("save" : String) = "execute")]
        simp
    · rcases hg : getNukeNode catalog cmd with e | node
      · rw [classCmd_err catalog st cmd args e hg] at h
        exact absurd h (by simp)
      · rw [classCmd_ok catalog st cmd args node hg] at h
        injection h with h
        refine ⟨[.createNode node (joinArgs args)], [], by rw [← h], by rw [← h]; simp, ?_, ?_, by simp⟩
        · intro s hs
          rcases List.mem_singleton.mp hs with rfl
          rfl
        · rw [hrange, if_neg h3]
          simp

theorem processLines_effect (catalog : List String) (fs : FS) :
    ∀ (ls : List (List Char)) (st st' : St),
    processLines catalog fs ls st = .ok st' →
    ∃ news newe,
      st'.cmdStack = st.cmdStack ++ news ∧
      st'.execNodes = st.execNodes ++ newe ∧
      (∀ s ∈ news, s.isExec = false) ∧
      newe.map Prod.snd = execRanges ls ∧
      (∀ p ∈ newe, Stmt.setVar p.1 ∈ news)
  | [], st, st', h => by
    unfold processLines at h
    injection h with h
    exact ⟨[], [], by rw [← h]; simp, by rw [← h]; simp, by simp, by simp [execRanges], by simp⟩
  | l :: ls, st, st', h => by
    unfold processLines at h
    rcases hstep : processLine catalog fs st l with e | st1
    · rw [hstep] at h
      exact absurd h (by simp)
    · rw [hstep] at h
      rcases processLine_effect catalog fs st l st1 hstep with ⟨n1, e1, hc1, he1, hne1, hm1, hs1⟩
      rcases processLines_effect catalog fs ls st1 st' h with ⟨n2, e2, hc2, he2, hne2, hm2, hs2⟩
      refine ⟨n1 ++ n2, e1 ++ e2, ?_, ?_, ?_, ?_, ?_⟩
      · rw [hc2, hc1, List.append_assoc]
      · rw [he2, he1, List.append_assoc]
      · intro s hs
        rcases List.mem_append.mp hs with hs | hs
        · exact hne1 s hs
        · exact hne2 s hs
      · rw [List.map_append, hm1, hm2]
        unfold execRanges
        rw [List.filterMap_cons]
        rcases hlr : lineExecRange l with _ | r <;> simp [Option.toList]
      · intro p hp
        rcases List.mem_append.mp hp with hp | hp
        · exact List.mem_append.mpr (Or.inl (hs1 p hp))
        · exact List.mem_append.mpr (Or.inr (hs2 p hp))

theorem processLine_class_effect (catalog : List String) (fs : FS) (st : St) (l : List Char)
    (st' : St) (hcl : isClassLine l = true) (h : processLine catalog fs st l = .ok st') :
    st'.execNodes = st.execNodes ∧
    ∃ s, st'.cmdStack = st.cmdStack ++ [s] ∧ createsNodeFor catalog l s := by
  rcases hp : parseLinePy l with _ | ⟨cmd, args⟩
  · rw [processLine_none catalog fs st l hp] at h
    exact absurd h (by simp)
  · rw [isClassLine_some l cmd args hp] at hcl
    simp only [Bool.and_eq_true, bne_iff_ne, ne_eq] at hcl
    obtain ⟨⟨⟨hs, hpu⟩, he⟩, hv⟩ := hcl
    rw [processLine_some catalog fs st l cmd args hp] at h
    rw [dispatchCmd_class catalog fs st cmd args (fun hx => hs hx.1) (fun hx => hpu hx.1)
      he hv] at h
    rcases hg : getNukeNode catalog cmd with e | node
    · rw [classCmd_err catalog st cmd args e hg] at h
      exact absurd h (by simp)
    · rw [classCmd_ok catalog st cmd args node hg] at h
      injection h with h
      exact ⟨by rw [← h], .createNode node (joinArgs args), by rw [← h],
        cmd, args, node, hp, hg, rfl⟩

theorem processLines_class_effect (catalog : List String) (fs : FS) :
    ∀ (ls : List (List Char)) (st st' : St),
    (∀ l ∈ ls, isClassLine l = true) →
    processLines catalog fs ls st = .ok st' →
    st'.execNodes = st.execNodes ∧
    ∃ news, st'.cmdStack = st.cmdStack ++ news ∧
      List.Forall₂ (createsNodeFor catalog) ls news
  | [], st, st', _, h => by
    unfold processLines at h
    injection h with h
    exact ⟨by rw [← h], [], by rw [← h]; simp, List.Forall₂.nil⟩
  | l :: ls, st, st', hall, h => by
    unfold processLines at h
    rcases hstep : processLine catalog fs st l with e | st1
    · rw [hstep] at h
      exact absurd h (by simp)
    · rw [hstep] at h
      rcases processLine_class_effect catalog fs st l st1 (hall l (by simp)) hstep with
        ⟨hex1, s, hc1, hrel⟩
      rcases processLines_class_effect catalog fs ls st1 st'
        (fun x hx => hall x (List.mem_cons_of_mem l hx)) h with ⟨hex2, news, hc2, hrels⟩
      refine ⟨by rw [hex2, hex1], s :: news, ?_, List.Forall₂.cons hrel hrels⟩
      rw [hc2, hc1]
      simp

theorem processLine_block (catalog : List String) (fs : FS) (st : St) (l : List Char)
    (st' : St) (h : processLine catalog fs st l = .ok st') :
    ∃ news newe, st'.cmdStack = st.cmdStack ++ news ∧ st'.execNodes = st.execNodes ++ newe ∧
      execCaptureAt l (news, newe) := by
  rcases hp : parseLinePy l with _ | ⟨cmd, args⟩
  · rw [processLine_none catalog fs st l hp] at h
    exact absurd h (by simp)
  · rw [processLine_some catalog fs st l cmd args hp] at h
    unfold dispatchCmd at h
    split_ifs at h with h1 h2 h3 h4
    · obtain ⟨hc, _⟩ := h1
      subst hc
      injection h with h
      refine ⟨[.setVar (generateNodeID (args.headD "") st.counter)], [],
        by rw [← h]; rfl, by rw [← h]; simp [setCmd], ?_⟩
      intro cmd' args' hp'
      rw [hp] at hp'
      simp only [Option.some.injEq, Prod.mk.injEq] at hp'
      obtain ⟨hc', ha'⟩ := hp'
      subst hc'
      subst ha'
      exact ⟨fun hx => absurd hx (by decide), fun _ => rfl⟩
    · obtain ⟨hc, _⟩ := h2
      subst hc
      have hrest : ∀ news : List Stmt, st' = { st with cmdStack := st.cmdStack ++ news } →
          ∃ news' newe, st'.cmdStack = st.cmdStack ++ news' ∧
            st'.execNodes = st.execNodes ++ newe ∧ execCaptureAt l (news', newe) := by
        intro news hst
        refine ⟨news, [], by rw [hst], by rw [hst]; simp, ?_⟩
        intro cmd' args' hp'
        rw [hp] at hp'
        simp only [Option.some.injEq, Prod.mk.injEq] at hp'
        obtain ⟨hc', ha'⟩ := hp'
        subst hc'
        subst ha'
        exact ⟨fun hx => absurd hx (by decide), fun _ => rfl⟩
      rcases hlk : st.varMap.lookup (args.headD "") with _ | id
      · rw [pushCmd_absent st _ hlk] at h
        exact absurd h (by simp)
      · by_cases hv : args.headD "" = "0"
        · rw [hv] at hlk
          rw [hv, pushCmd_zero st id hlk] at h
          injection h with h
          exact hrest [.pushZero] h.symm
        · rw [pushCmd_found st _ id hlk hv] at h
          injection h with h
          exact hrest [.pushVar id] h.symm
    · subst h3
      injection h with h
      refine ⟨[.setVar (generateNodeID ("execute") st.counter)],
        [(generateNodeID ("execute") st.counter, args.head?)],
        by rw [← h]; rfl, by rw [← h]; rfl, ?_⟩
      intro cmd' args' hp'
      rw [hp] at hp'
      simp only [Option.some.injEq, Prod.mk.injEq] at hp'
      obtain ⟨hc', ha'⟩ := hp'
      subst hc'
      subst ha'
      exact ⟨fun _ => ⟨generateNodeID ("execute") st.counter, rfl, rfl⟩,
        fun hne => absurd rfl hne⟩
    · subst h4
      rcases saveCmd_ok_cases fs st args st' h with ⟨news, newWarns, _, hst⟩
      refine ⟨news, [], by rw [hst], by rw [hst]; simp, ?_⟩
      intro cmd' args' hp'
      rw [hp] at hp'
      simp only [Option.some.injEq, Prod.mk.injEq] at hp'
      obtain ⟨hc', ha'⟩ := hp'
      subst hc'
      subst ha'
      exact ⟨fun hx => absurd hx (by decide), fun _ => rfl⟩
    · rcases hg : getNukeNode catalog cmd with e | node
      · rw [classCmd_err catalog st cmd args e hg] at h
        exact absurd h (by simp)
      · rw [classCmd_ok catalog st cmd args node hg] at h
        injection h with h
        refine ⟨[.createNode node (joinArgs args)], [], by rw [← h], by rw [← h]; simp, ?_⟩
        intro cmd' args' hp'
        rw [hp] at hp'
        simp only [Option.some.injEq, Prod.mk.injEq] at hp'
        obtain ⟨hc', ha'⟩ := hp'
        subst hc'
        subst ha'
        exact ⟨fun hx => absurd hx h3, fun _ => rfl⟩

theorem processLines_blocks (catalog : List String) (fs : FS) :
    ∀ (ls : List (List Char)) (st st' : St),
    processLines catalog fs ls st = .ok st' →
    ∃ pieces : List (List Stmt × List (String × Option String)),
      st'.cmdStack = st.cmdStack ++ (pieces.map Prod.fst).flatten ∧
      st'.execNodes = st.execNodes ++ (pieces.map Prod.snd).flatten ∧
      List.Forall₂ execCaptureAt ls pieces
  | [], st, st', h => by
    unfold processLines at h
    injection h with h
    exact ⟨[], by rw [← h]; simp, by rw [← h]; simp, List.Forall₂.nil⟩
  | l :: ls, st, st', h => by
    unfold processLines at h
    rcases hstep : processLine catalog fs st l with e | st1
    · rw [hstep] at h
      exact absurd h (by simp)
    · rw [hstep] at h
      rcases processLine_block catalog fs st l st1 hstep with ⟨n1, e1, hc1, he1, hcap⟩
      rcases processLines_blocks catalog fs ls st1 st' h with ⟨pieces, hc2, he2, hrel⟩
      refine ⟨(n1, e1) :: pieces, ?_, ?_, List.Forall₂.cons hcap hrel⟩
      · rw [hc2, hc1]
        simp [List.append_assoc]
      · rw [he2, he1]
        simp [List.append_assoc]

/-! ### Claims -/

/-- Claim C1: on every successful compilation the final statement list is the
main walk's statements followed by the deferred execute statements; the main
walk emits no execute statement, so every execute statement comes after every
other statement; there is exactly one execute statement per "execute" command,
in encounter order (their optional ranges agree with the segment list); each
embeds the supplied range verbatim (`executeRange`) or reads the captured
node's first/last knobs (`executeKnobs`); and each referenced identifier was
captured by a `setVar` statement emitted at the point the "execute" command
was seen: the main walk's statements decompose into per-segment blocks, in
segment order, and an "execute" segment's block is exactly the single
capture statement of the identifier registered for that segment's request
(`execCaptureAt`). -/
theorem C1_deferred_execution (catalog : List String) (fs : FS) (raw : String) (st : St)
    (h : runCLIState catalog fs raw = .ok st) :
    finalStmts st = st.cmdStack ++ st.execNodes.map execStmt ∧
    (∀ s ∈ st.cmdStack, s.isExec = false) ∧
    (∀ s ∈ st.execNodes.map execStmt, s.isExec = true) ∧
    st.execNodes.map Prod.snd = execRanges (segmentsPy raw.toList) ∧
    (∀ p ∈ st.execNodes, Stmt.setVar p.1 ∈ st.cmdStack) ∧
    (∀ id r, (id, some r) ∈ st.execNodes → Stmt.executeRange id r ∈ finalStmts st) ∧
    (∀ id, (id, none) ∈ st.execNodes → Stmt.executeKnobs id ∈ finalStmts st) ∧
    (∃ pieces : List (List Stmt × List (String × Option String)),
      st.cmdStack = (pieces.map Prod.fst).flatten ∧
      st.execNodes = (pieces.map Prod.snd).flatten ∧
      List.Forall₂ execCaptureAt (segmentsPy raw.toList) pieces) := by
  unfold runCLIState at h
  rcases processLines_effect catalog fs (segmentsPy raw.toList) initSt st h with
    ⟨news, newe, hc, he, hne, hm, hs⟩
  have hc' : st.cmdStack = news := by simpa [initSt] using hc
  have he' : st.execNodes = newe := by simpa [initSt] using he
  refine ⟨rfl, ?_, ?_, ?_, ?_, ?_, ?_, ?_⟩
  · intro s hs'
    rw [hc'] at hs'
    exact hne s hs'
  · intro s hs'
    rcases List.mem_map.mp hs' with ⟨p, hp, rfl⟩
    rcases p with ⟨id, _ | r⟩ <;> rfl
  · rw [he', hm]
  · intro p hp
    rw [he'] at hp
    rw [hc']
    exact hs p hp
  · intro id r hmem
    unfold finalStmts
    exact List.mem_append.mpr (Or.inr (List.mem_map.mpr ⟨(id, some r), hmem, rfl⟩))
  · intro id hmem
    unfold finalStmts
    exact List.mem_append.mpr (Or.inr (List.mem_map.mpr ⟨(id, none), hmem, rfl⟩))
  · rcases processLines_blocks catalog fs (segmentsPy raw.toList) initSt st h with
      ⟨pieces, hcp, hep, hrelp⟩
    exact ⟨pieces, by simpa [initSt] using hcp, by simpa [initSt] using hep, hrelp⟩

/-- Witness for C1 at a concrete run with one ranged and one rangeless
execute request. -/
theorem C1_deferred_execution_witness :
    finalStmts c1St = c1St.cmdStack ++ c1St.execNodes.map execStmt ∧
    c1St.execNodes.map Prod.snd =
      execRanges (segmentsPy ("-Write file.exr -execute 1-10 -Write b.exr -execute").toList) :=
  ⟨(C1_deferred_execution ["Write"] fsEmpty
      ("-Write file.exr -execute 1-10 -Write b.exr -execute") c1St (by rfl)).1,
   (C1_deferred_execution ["Write"] fsEmpty
      ("-Write file.exr -execute 1-10 -Write b.exr -execute") c1St (by rfl)).2.2.2.1⟩

/-- Claim C2 (counterexample): an "execute" command with two arguments — an
arity violation of the "zero or one" contract — compiles successfully
instead of failing with a malformed-command error. -/
theorem C2_arity_counterexample :
    (parseCLI [] fsEmpty ("-execute 1-10 junk")).isOk = true := by rfl

/-- Claim C2 (amended): keyword arity violations are not reported through a
dedicated malformed-command failure: "set" and "push" with an argument count
other than one fall through to node-class resolution, "execute" accepts any
number of arguments and uses only the first as the range, and "save" with no
arguments aborts with the index error of popping an empty argument list. -/
theorem C2_arity_amended (catalog : List String) (fs : FS) (st : St) :
    (∀ args : List String, args.length ≠ 1 →
      dispatchCmd catalog fs st ("set") args = classCmd catalog st ("set") args) ∧
    (∀ args : List String, args.length ≠ 1 →
      dispatchCmd catalog fs st ("push") args = classCmd catalog st ("push") args) ∧
    (∀ (r : String) (rest : List String),
      dispatchCmd catalog fs st ("execute") (r :: rest) =
        .ok { st with
          execNodes := st.execNodes ++ [(generateNodeID ("execute") st.counter, some r)],
          cmdStack := st.cmdStack ++ [.setVar (generateNodeID ("execute") st.counter)],
          counter := st.counter + 1 }) ∧
    (dispatchCmd catalog fs st ("save") [] = .error .indexError) := by
  refine ⟨?_, ?_, ?_, ?_⟩
  · intro args hlen
    exact dispatchCmd_class catalog fs st ("set") args (fun hx => hlen hx.2)
      (by simp) (by decide) (by decide)
  · intro args hlen
    exact dispatchCmd_class catalog fs st ("push") args (by simp) (fun hx => hlen hx.2)
      (by decide) (by decide)
  · intro r rest
    rw [dispatchCmd_execute]
    rfl
  · rw [dispatchCmd_save, saveCmd_nil]

/-- Witness for C2's amended statement at concrete arity-violating inputs. -/
theorem C2_arity_amended_witness :
    dispatchCmd [] fsEmpty initSt ("set") ["a", "b"] = classCmd [] initSt ("set") ["a", "b"] ∧
    dispatchCmd [] fsEmpty initSt ("push") [] = classCmd [] initSt ("push") [] ∧
    dispatchCmd [] fsEmpty initSt ("execute") ["1-10", "junk"] =
      .ok { initSt with
        execNodes := initSt.execNodes ++
          [(generateNodeID ("execute") initSt.counter, some ("1-10"))],
        cmdStack := initSt.cmdStack ++ [.setVar (generateNodeID ("execute") initSt.counter)],
        counter := initSt.counter + 1 } ∧
    dispatchCmd [] fsEmpty initSt ("save") [] = .error .indexError :=
  ⟨(C2_arity_amended [] fsEmpty initSt).1 ["a", "b"] (by decide),
   (C2_arity_amended [] fsEmpty initSt).2.1 [] (by decide),
   (C2_arity_amended [] fsEmpty initSt).2.2.1 ("1-10") ["junk"],
   (C2_arity_amended [] fsEmpty initSt).2.2.2⟩

/-- Claim C3: in any reachable compiler state, pushing the literal name "0"
emits the null-placeholder statement; pushing a name recorded in the variable
table emits a push of the recorded identifier; pushing an unrecorded name
fails with the key-lookup error. -/
theorem C3_push_semantics (catalog : List String) (fs : FS) (raw : String) (st : St)
    (h : runCLIState catalog fs raw = .ok st) :
    (dispatchCmd catalog fs st ("push") ["0"] =
      .ok { st with cmdStack := st.cmdStack ++ [.pushZero] }) ∧
    (∀ v id : String, v ≠ "0" → st.varMap.lookup v = some id →
      dispatchCmd catalog fs st ("push") [v] =
        .ok { st with cmdStack := st.cmdStack ++ [.pushVar id] }) ∧
    (∀ v : String, st.varMap.lookup v = none →
      dispatchCmd catalog fs st ("push") [v] = .error (.keyError v)) := by
  refine ⟨?_, ?_, ?_⟩
  · rcases Option.isSome_iff_exists.mp (runCLIState_lookup_zero catalog fs raw st h) with
      ⟨id, hid⟩
    rw [dispatchCmd_push, pushCmd_zero st id hid]
  · intro v id hv hlk
    rw [dispatchCmd_push, pushCmd_found st v id hlk hv]
  · intro v hlk
    rw [dispatchCmd_push, pushCmd_absent st v hlk]

/-- Witness for C3 after a run containing `-set 0` (the pre-seeded entry was
re-set, yet `push 0` still emits the placeholder). -/
theorem C3_push_semantics_witness :
    dispatchCmd [] fsEmpty c3St ("push") ["0"] =
      .ok { c3St with cmdStack := c3St.cmdStack ++ [.pushZero] } ∧
    dispatchCmd [] fsEmpty c3St ("push") ["x"] =
      .ok { c3St with cmdStack := c3St.cmdStack ++ [.pushVar ("Nx_1")] } ∧
    dispatchCmd [] fsEmpty c3St ("push") ["y"] = .error (.keyError ("y")) :=
  ⟨(C3_push_semantics [] fsEmpty ("-set 0 -set x") c3St (by rfl)).1,
   (C3_push_semantics [] fsEmpty ("-set 0 -set x") c3St (by rfl)).2.1 ("x") ("Nx_1")
     (by decide) (by rfl),
   (C3_push_semantics [] fsEmpty ("-set 0 -set x") c3St (by rfl)).2.2 ("y") (by rfl)⟩

/-- Claim C4: when every segment of the input is a class flag (its command
name is none of the four keywords) and compilation succeeds, no execution
request is registered, the final statement list is exactly the main walk's,
and the statements are in one-to-one order-preserving correspondence with the
segments, each a create-node statement for the resolved class carrying the
space-joined argument string. -/
theorem C4_class_flags (catalog : List String) (fs : FS) (raw : String) (st : St)
    (h : runCLIState catalog fs raw = .ok st)
    (hall : ∀ l ∈ segmentsPy raw.toList, isClassLine l = true) :
    st.execNodes = [] ∧ finalStmts st = st.cmdStack ∧
    List.Forall₂ (createsNodeFor catalog) (segmentsPy raw.toList) st.cmdStack := by
  unfold runCLIState at h
  rcases processLines_class_effect catalog fs (segmentsPy raw.toList) initSt st hall h with
    ⟨hex, news, hc, hrel⟩
  have hex' : st.execNodes = [] := by simpa [initSt] using hex
  have hc' : st.cmdStack = news := by simpa [initSt] using hc
  refine ⟨hex', ?_, ?_⟩
  · unfold finalStmts
    rw [hex']
    simp
  · rw [hc']
    exact hrel

/-- Witness for C4 at a concrete two-flag input. -/
theorem C4_class_flags_witness :
    c4St.execNodes = [] ∧ finalStmts c4St = c4St.cmdStack ∧
    List.Forall₂ (createsNodeFor ["Blur", "Grade"])
      (segmentsPy ("-Blur size 2 -Grade").toList) c4St.cmdStack :=
  C4_class_flags ["Blur", "Grade"] fsEmpty ("-Blur size 2 -Grade") c4St (by rfl) (by decide)

/-- Claim C5: the save guards — an existing directory, an existing file
without "force", and an existing file with a second argument other than
"force" all skip the save with warnings only and never raise; an existing
file with "force", and a path that does not exist, emit exactly one save
statement at that point. -/
theorem C5_save_guard (catalog : List String) (fs : FS) (st : St) (p : String)
    (rest : List String) :
    (fs.isdir p = true →
      dispatchCmd catalog fs st ("save") (p :: rest) =
        .ok { st with warnings := st.warnings ++ [.isDirectory p] }) ∧
    (fs.isdir p = false → fs.pathExists p = true → rest = [] →
      dispatchCmd catalog fs st ("save") (p :: rest) =
        .ok { st with warnings := st.warnings ++ [.alreadyExists p, .noForce] }) ∧
    (∀ (w : String) (wrest : List String), fs.isdir p = false → fs.pathExists p = true →
      rest = w :: wrest → w ≠ "force" →
      dispatchCmd catalog fs st ("save") (p :: rest) =
        .ok { st with warnings := st.warnings ++ [.alreadyExists p, .invalidForce] }) ∧
    (∀ wrest : List String, fs.isdir p = false → fs.pathExists p = true →
      rest = "force" :: wrest →
      dispatchCmd catalog fs st ("save") (p :: rest) =
        .ok { st with warnings := st.warnings ++ [.alreadyExists p, .forcing],
                      cmdStack := st.cmdStack ++ [.save p] }) ∧
    (fs.isdir p = false → fs.pathExists p = false →
      dispatchCmd catalog fs st ("save") (p :: rest) =
        .ok { st with cmdStack := st.cmdStack ++ [.save p] }) := by
  refine ⟨?_, ?_, ?_, ?_, ?_⟩
  · intro hd
    rw [dispatchCmd_save, saveCmd_isdir fs st p rest hd]
  · intro hd he hr
    subst hr
    rw [dispatchCmd_save, saveCmd_exists_noforce fs st p hd he]
  · intro w wrest hd he hr hw
    subst hr
    rw [dispatchCmd_save, saveCmd_exists_badforce fs st p w wrest hd he hw]
  · intro wrest hd he hr
    subst hr
    rw [dispatchCmd_save, saveCmd_exists_force fs st p wrest hd he]
  · intro hd he
    rw [dispatchCmd_save, saveCmd_fresh fs st p rest hd he]

/-- Witness for C5 on a concrete filesystem with one directory and one
existing file, covering all five branches. -/
theorem C5_save_guard_witness :
    dispatchCmd [] fsTest initSt ("save") ["/dir"] =
      .ok { initSt with warnings := initSt.warnings ++ [.isDirectory ("/dir")] } ∧
    dispatchCmd [] fsTest initSt ("save") ["/file.nk"] =
      .ok { initSt with warnings := initSt.warnings ++ [.alreadyExists ("/file.nk"), .noForce] } ∧
    dispatchCmd [] fsTest initSt ("save") ["/file.nk", "oops"] =
      .ok { initSt with
        warnings := initSt.warnings ++ [.alreadyExists ("/file.nk"), .invalidForce] } ∧
    dispatchCmd [] fsTest initSt ("save") ["/file.nk", "force"] =
      .ok { initSt with
        warnings := initSt.warnings ++ [.alreadyExists ("/file.nk"), .forcing],
        cmdStack := initSt.cmdStack ++ [.save ("/file.nk")] } ∧
    dispatchCmd [] fsTest initSt ("save") ["/new.nk"] =
      .ok { initSt with cmdStack := initSt.cmdStack ++ [.save ("/new.nk")] } :=
  ⟨(C5_save_guard [] fsTest initSt ("/dir") []).1 (by rfl),
   (C5_save_guard [] fsTest initSt ("/file.nk") []).2.1 (by rfl) (by rfl) rfl,
   (C5_save_guard [] fsTest initSt ("/file.nk") ["oops"]).2.2.1 ("oops") [] (by rfl) (by rfl)
     rfl (by decide),
   (C5_save_guard [] fsTest initSt ("/file.nk") ["force"]).2.2.2.1 [] (by rfl) (by rfl) rfl,
   (C5_save_guard [] fsTest initSt ("/new.nk") []).2.2.2.2 (by rfl) (by rfl)⟩

/-- Claim C6: when no catalog entry matches at the exact or case-insensitive
version-suffix tiers, the resolver returns the unique case-insensitive
partial (prefix) match if there is exactly one, fails with an ambiguity
error carrying the input and every partial match if there are several, and
fails with a no-match error naming the input if there are none. -/
theorem C6_partial_tier (catalog : List String) (s : String)
    (h1 : ∀ item ∈ catalog, exactVerMatch s item = false)
    (h2 : ∀ item ∈ catalog, ciVerMatch s item = false) :
    (catalog.filter (fun item => ciPartialMatch s item) = [] →
      getNukeNode catalog s = .error (.noMatch s)) ∧
    (∀ x, catalog.filter (fun item => ciPartialMatch s item) = [x] →
      getNukeNode catalog s = .ok x) ∧
    (∀ x y zs, catalog.filter (fun item => ciPartialMatch s item) = x :: y :: zs →
      getNukeNode catalog s = .error (.ambiguousMatch s (x :: y :: zs))) := by
  have e1 : catalog.filter (fun item => exactVerMatch s item) = [] :=
    List.filter_eq_nil_iff.mpr (fun a ha => by simp [h1 a ha])
  have e2 : catalog.filter (fun item => ciVerMatch s item) = [] :=
    List.filter_eq_nil_iff.mpr (fun a ha => by simp [h2 a ha])
  refine ⟨?_, ?_, ?_⟩
  · intro h3
    simp only [getNukeNode, e1, e2, h3]
    simp
  · intro x h3
    simp only [getNukeNode, e1, e2, h3]
    simp
  · intro x y zs h3
    simp only [getNukeNode, e1, e2, h3]
    simp

/-- Witness for C6 covering the unique-match, ambiguous and no-match cases. -/
theorem C6_partial_tier_witness :
    getNukeNode ["Blur", "Glow"] ("zz") = .error (.noMatch ("zz")) ∧
    getNukeNode ["Blur", "Glow"] ("bl") = .ok ("Blur") ∧
    getNukeNode ["Blur", "Blob"] ("bl") = .error (.ambiguousMatch ("bl") ["Blur", "Blob"]) :=
  ⟨(C6_partial_tier ["Blur", "Glow"] ("zz") (by decide) (by decide)).1 (by rfl),
   (C6_partial_tier ["Blur", "Glow"] ("bl") (by decide) (by decide)).2.1 ("Blur") (by rfl),
   (C6_partial_tier ["Blur", "Blob"] ("bl") (by decide) (by decide)).2.2 ("Blur") ("Blob") []
     (by rfl)⟩

/-- Claim C7: when the exact version-suffix tier matches (or, failing that,
the case-insensitive one), the resolver returns the last element of the
sorted match list, which is a member of the matches and an upper bound of
them in Python's lexicographic string order; in particular a catalog
`["Blur", "Blur2"]` resolves the candidate "Blur" to "Blur2". -/
theorem C7_version_tier (catalog : List String) (s : String) :
    (catalog.filter (fun item => exactVerMatch s item) ≠ [] →
      getNukeNode catalog s =
        .ok (pySortLast (catalog.filter (fun item => exactVerMatch s item))) ∧
      pySortLast (catalog.filter (fun item => exactVerMatch s item)) ∈
        catalog.filter (fun item => exactVerMatch s item) ∧
      (∀ y ∈ catalog.filter (fun item => exactVerMatch s item),
        strLe y (pySortLast (catalog.filter (fun item => exactVerMatch s item))) = true)) ∧
    (catalog.filter (fun item => exactVerMatch s item) = [] →
      catalog.filter (fun item => ciVerMatch s item) ≠ [] →
      getNukeNode catalog s =
        .ok (pySortLast (catalog.filter (fun item => ciVerMatch s item))) ∧
      pySortLast (catalog.filter (fun item => ciVerMatch s item)) ∈
        catalog.filter (fun item => ciVerMatch s item) ∧
      (∀ y ∈ catalog.filter (fun item => ciVerMatch s item),
        strLe y (pySortLast (catalog.filter (fun item => ciVerMatch s item))) = true)) ∧
    getNukeNode ["Blur", "Blur2"] ("Blur") = .ok ("Blur2") := by
  refine ⟨?_, ?_, by rfl⟩
  · intro hne
    refine ⟨?_, pySortLast_mem _ hne, fun y hy => pySortLast_ub _ y hy⟩
    simp only [getNukeNode]
    rw [if_pos hne]
  · intro he hne
    refine ⟨?_, pySortLast_mem _ hne, fun y hy => pySortLast_ub _ y hy⟩
    simp only [getNukeNode, he]
    simp only [ne_eq, not_true_eq_false, if_false]
    rw [if_pos hne]

/-- Witness for C7 at the exact tier (the claim's Blur/Blur2 catalog) and at
the case-insensitive tier. -/
theorem C7_version_tier_witness :
    getNukeNode ["Blur", "Blur2"] ("Blur") =
      .ok (pySortLast (["Blur", "Blur2"].filter (fun item => exactVerMatch ("Blur") item))) ∧
    getNukeNode ["Blur2"] ("BLUR") =
      .ok (pySortLast (["Blur2"].filter (fun item => ciVerMatch ("BLUR") item))) :=
  ⟨((C7_version_tier ["Blur", "Blur2"] ("Blur")).1 (by decide)).1,
   ((C7_version_tier ["Blur2"] ("BLUR")).2.1 (by decide) (by decide)).1⟩

/-- Claim C8 (counterexample): two separate brace-delimited values separated
only by whitespace do not yield two distinct tokens — the greedy brace
alternative swallows both groups into a single token, so the segment
`x {1 2} {3 4}` tokenizes to two tokens instead of three. -/
theorem C8_two_groups_counterexample :
    tokenizePy ("x \x7b1 2\x7d \x7b3 4\x7d") = ["x", "\x7b1 2\x7d \x7b3 4\x7d"] ∧
    (tokenizePy ("x \x7b1 2\x7d \x7b3 4\x7d")).length = 2 := by
  exact ⟨by rfl, by rfl⟩

/-- Claim C8 (amended): a segment without an opening brace is split into
whitespace-separated tokens; a token beginning with an opening brace
consumes the greedy run of brace-class characters (digits, dots, whitespace,
braces) up to and including the last closing brace of that run — which is
the matching closing brace whenever no closing brace occurs in the
immediately following brace-class run, and which makes an arbitrarily nested
group one single token. -/
theorem C8_tokenizer_amended :
    (∀ s : List Char, '{' ∉ s → findallArg s = wsTokens s) ∧
    (∀ inner rest : List Char, inner ≠ [] → (∀ c ∈ inner, isArgClass c = true) →
      '}' ∉ rest.takeWhile isArgClass →
      findallArg ('{' :: (inner ++ '}' :: rest)) =
        ('{' :: (inner ++ ['}'])) :: findallArg rest) :=
  ⟨findallArg_no_brace, findallArg_brace_group⟩

/-- Witness for C8's amended statement: a braceless segment, and the claim's
nested group `{{.1 .2} {.3 .4}}` consumed as one token. -/
theorem C8_tokenizer_amended_witness :
    findallArg (String.toList ("a bc")) = wsTokens (String.toList ("a bc")) ∧
    findallArg ('{' :: (String.toList ("\x7b.1 .2\x7d \x7b.3 .4\x7d") ++ '}' :: [])) =
      ('{' :: (String.toList ("\x7b.1 .2\x7d \x7b.3 .4\x7d") ++ ['}'])) :: findallArg [] :=
  ⟨C8_tokenizer_amended.1 (String.toList ("a bc")) (by decide),
   C8_tokenizer_amended.2 (String.toList ("\x7b.1 .2\x7d \x7b.3 .4\x7d")) []
     (by decide) (by decide) (by decide)⟩

/-- Claim C9 (counterexample): the pre-seeded entry "0" of the variable
table is updated to a different identifier by `-set 0`, so entries are not
immutable once present. -/
theorem C9_varmap_counterexample :
    initSt.varMap.lookup ("0") = some ("0") ∧
    (runCLIState [] fsEmpty ("-set 0")).map (fun st => st.varMap.lookup ("0")) =
      .ok (some ("N0_0")) ∧
    ("N0_0" : String) ≠ "0" :=
  ⟨by rfl, by rfl, by decide⟩

/-- Claim C9 (amended): the variable table is modified only by "set"
commands and entries are never removed (present keys stay present), but a
"set" of an already-present name — including the pre-seeded "0" — shadows
the entry with a freshly generated identifier, so a later push recalls the
most recently recorded identifier. -/
theorem C9_varmap_discipline (catalog : List String) (fs : FS) (st : St) (l : List Char)
    (st' : St) (h : processLine catalog fs st l = .ok st') :
    (∀ k, (st.varMap.lookup k).isSome = true → (st'.varMap.lookup k).isSome = true) ∧
    (∀ cmd args, parseLinePy l = some (cmd, args) → ¬(cmd = "set" ∧ args.length = 1) →
      st'.varMap = st.varMap) ∧
    (∀ v, parseLinePy l = some ("set", [v]) →
      st'.varMap = (v, generateNodeID v st.counter) :: st.varMap ∧
      st'.varMap.lookup v = some (generateNodeID v st.counter)) := by
  refine ⟨fun k => processLine_varMap_mono catalog fs st l st' h k, ?_, ?_⟩
  · intro cmd args hp hns
    rw [processLine_some catalog fs st l cmd args hp] at h
    unfold dispatchCmd at h
    rw [if_neg hns] at h
    split_ifs at h with h1 h2 h3
    · rcases hlk : st.varMap.lookup (args.headD "") with _ | id
      · rw [pushCmd_absent st _ hlk] at h
        exact absurd h (by simp)
      · by_cases hv : args.headD "" = "0"
        · rw [hv] at hlk
          rw [hv, pushCmd_zero st id hlk] at h
          injection h with h
          rw [← h]
        · rw [pushCmd_found st _ id hlk hv] at h
          injection h with h
          rw [← h]
    · injection h with h
      rw [← h]
      rfl
    · rcases saveCmd_ok_cases fs st args st' h with ⟨news, newWarns, _, hst⟩
      rw [hst]
    · rcases hg : getNukeNode catalog cmd with e | node
      · rw [classCmd_err catalog st cmd args e hg] at h
        exact absurd h (by simp)
      · rw [classCmd_ok catalog st cmd args node hg] at h
        injection h with h
        rw [← h]
  · intro v hp
    rw [processLine_some catalog fs st l ("set") [v] hp, dispatchCmd_set] at h
    injection h with h
    refine ⟨by rw [← h]; rfl, ?_⟩
    rw [← h]
    show ((v, generateNodeID v st.counter) :: st.varMap).lookup v = _
    rw [List.lookup_cons]
    simp

/-- Witness for C9's amended statement: a "push" line leaves the variable
table unchanged, and a "set" line records the fresh identifier. -/
theorem C9_varmap_discipline_witness :
    (extractSt (processLine [] fsEmpty initSt (String.toList ("push 0")))).varMap =
      initSt.varMap ∧
    (extractSt (processLine [] fsEmpty initSt (String.toList ("set x")))).varMap =
      ("x", generateNodeID ("x") initSt.counter) :: initSt.varMap :=
  ⟨(C9_varmap_discipline [] fsEmpty initSt (String.toList ("push 0"))
      (extractSt (processLine [] fsEmpty initSt (String.toList ("push 0")))) (by rfl)).2.1
      ("push") ["0"] (by rfl) (by decide),
   ((C9_varmap_discipline [] fsEmpty initSt (String.toList ("set x"))
      (extractSt (processLine [] fsEmpty initSt (String.toList ("set x")))) (by rfl)).2.2
      ("x") (by rfl)).1⟩

/-- Claim C10: segmentation splits the space-prepended raw input on the
two-character sequence space-hyphen before any tokenization, so a hyphen
preceded by a space — even inside a brace group — starts a new segment: for
any prefix and suffix free of further separator occurrences, the suffix
becomes its own segment and no part of it remains in the preceding
command's segment. -/
theorem C10_segmentation (a b : List Char)
    (ha : hasSep (' ' :: a) = false) (hb : hasSep b = false) :
    segmentsPy (a ++ ' ' :: '-' :: b) =
      trimPy a :: (if b = [] then [] else [trimPy b]) := by
  unfold segmentsPy
  have hpre : ' ' :: (a ++ ' ' :: '-' :: b) = (' ' :: a) ++ ' ' :: '-' :: b := rfl
  rw [hpre, splitDash_append_sep (' ' :: a) b ha, splitDash_no_sep b hb]
  by_cases hbe : b = []
  · subst hbe
    simp [trimPy_cons_space]
  · simp [hbe, trimPy_cons_space]

/-- Witness for C10: a negative value inside a brace group (`{ -1 0}`) is
cut away from its command at the space-hyphen. -/
theorem C10_segmentation_witness :
    segmentsPy ((String.toList ("Blur size \x7b")) ++ ' ' :: '-' :: (String.toList ("1 0\x7d"))) =
      trimPy (String.toList ("Blur size \x7b")) ::
        (if (String.toList ("1 0\x7d")) = [] then []
         else [trimPy (String.toList ("1 0\x7d"))]) :=
  C10_segmentation (String.toList ("Blur size \x7b")) (String.toList ("1 0\x7d"))
    (by decide) (by decide)
